/-
Verification of the cudet node engine (src/cudet/nodes.py): configuration
resolution (Node.apply_conf), fleet-wide once-assignment
(NodeManager._conf_assign_once), inventory filtering (NodeFilter),
post-filtration checking (NodeManager._check_filtration_results) and
per-host execution error handling (Node.exec_cmd, Node.check_code).

The Python heap values that flow through these functions (YAML/JSON data:
None, bools, ints, strings, lists, dicts) are embedded as the inductive
type Val.  A host's dynamically-typed attribute namespace
(getattr/setattr/hasattr) is embedded as a function String → Option Val.
-/
import Mathlib

/-! ### Python values -/

/-- Embedding of the Python values handled by nodes.py: None, bool, int,
str, list, dict (a dict is a key-ordered association list, matching the
deterministic iteration order of a concrete dict). -/
inductive Val where
  | vnone : Val
  | vbool : Bool → Val
  | vint : Int → Val
  | vstr : String → Val
  | vlist : List Val → Val
  | vdict : List (Val × Val) → Val
  deriving Repr

mutual
/-- Structural equality of embedded Python values (Python ==).  Defined
mutually with its list and pair-list variants because Val is a nested
inductive. -/
def Val.beq : Val → Val → Bool
  | .vnone, .vnone => true
  | .vbool a, .vbool b => a == b
  | .vint a, .vint b => a == b
  | .vstr a, .vstr b => a == b
  | .vlist a, .vlist b => Val.beqList a b
  | .vdict a, .vdict b => Val.beqPairs a b
  | _, _ => false

def Val.beqList : List Val → List Val → Bool
  | [], [] => true
  | a :: as, b :: bs => Val.beq a b && Val.beqList as bs
  | _, _ => false

def Val.beqPairs : List (Val × Val) → List (Val × Val) → Bool
  | [], [] => true
  | (k1, v1) :: as, (k2, v2) :: bs =>
      Val.beq k1 k2 && Val.beq v1 v2 && Val.beqPairs as bs
  | _, _ => false
end

instance : BEq Val := ⟨Val.beq⟩

mutual
/-- A computable structural size of an embedded value; it strictly bounds
the nesting depth and serves as walk fuel (see r_apply). -/
def Val.vsize : Val → Nat
  | .vnone => 1
  | .vbool _ => 1
  | .vint _ => 1
  | .vstr _ => 1
  | .vlist xs => 1 + Val.vsizeList xs
  | .vdict kvs => 1 + Val.vsizePairs kvs

def Val.vsizeList : List Val → Nat
  | [] => 0
  | x :: xs => 1 + Val.vsize x + Val.vsizeList xs

def Val.vsizePairs : List (Val × Val) → Nat
  | [] => 0
  | (k, v) :: kvs => 1 + Val.vsize k + Val.vsize v + Val.vsizePairs kvs
end

/-- Python truthiness (bool(x)) for embedded values. -/
def pyTruthy : Val → Bool
  | .vnone => false
  | .vbool b => b
  | .vint i => i ≠ 0
  | .vstr s => s ≠ ""
  | .vlist xs => ¬ xs.isEmpty
  | .vdict kvs => ¬ kvs.isEmpty

/-- Python len() for the sized values that reach it in nodes.py.
len() of None/bool/int raises TypeError in Python; those cases are
unreachable where this is used and are mapped to 0. -/
def pyLen : Val → Nat
  | .vstr s => s.data.length
  | .vlist xs => xs.length
  | .vdict kvs => kvs.length
  | _ => 0

/-- The string-keyed entries of a dict value, in iteration order.  The
document scopes walked by apply_conf are dicts keyed by strings
(attribute names, by_xxx sections, the default key); a non-string key in
a walked scope would crash the source at k.startswith and does not occur,
and non-dict values yield no entries. -/
def dictEntriesS (el : Val) : List (String × Val) :=
  match el with
  | .vdict kvs => kvs.filterMap (fun kv =>
      match kv.1 with
      | .vstr s => some (s, kv.2)
      | _ => none)
  | _ => []

/-- Python `container[key]` / `key in container` for dict values: the first
entry whose key compares == to the given key.  Non-dict containers yield
none (in the walked documents every indexed value is a dict). -/
def dictLookup (container : Val) (key : Val) : Option Val :=
  match container with
  | .vdict kvs => (kvs.find? (fun kv => Val.beq kv.1 key)).map (·.2)
  | _ => none

/-- The keys of a dict value in iteration order (Python `for k in d`). -/
def dictKeys : Val → List Val
  | .vdict kvs => kvs.map (·.1)
  | _ => []

/-- Modelled from the spec: utils.w_list (module cudet.utils, which is not
under src/) normalizes "the host's attribute value(s)" to a list: a list
value yields its elements unchanged, any other value a one-element list. -/
def w_list : Val → List Val
  | .vlist xs => xs
  | v => [v]

/-! ### Host attribute state -/

/-- A host's dynamic attribute namespace: getattr k is attrs k, hasattr k
is (attrs k).isSome, setattr is NodeSt.set.  Python aliasing plays no
role: the source deep-copies every stored value. -/
structure NodeSt where
  attrs : String → Option Val

/-- setattr(self, k, v). -/
def NodeSt.set (n : NodeSt) (k : String) (v : Val) : NodeSt :=
  ⟨fun k2 => if k2 = k then some v else n.attrs k2⟩

def NodeSt.empty : NodeSt := ⟨fun _ => none⟩

def NodeSt.ofList (l : List (String × Val)) : NodeSt :=
  l.foldl (fun n kv => n.set kv.1 kv.2) NodeSt.empty

/-- The `overridden` bookkeeping dict of Node.apply_conf (its values are
always True; only key membership is consulted). -/
abbrev Overr := List String

namespace Node

def ckey : String := "cmds"
def skey : String := "scripts"
def fkey : String := "files"
def flkey : String := "filelists"
def lkey : String := "logs"
def pkey : String := "put"
def conf_actionable : List String := [lkey, ckey, skey, fkey, flkey, pkey]
def conf_appendable : List String := [lkey, ckey, skey, fkey, flkey, pkey]
def conf_archive_general : List String := [ckey, skey, fkey, flkey]
def conf_keep_default : List String := [skey, ckey, fkey, flkey]
/-- Node.conf_once_prefix in the source. -/
def conf_once_pre : String := "once_"
/-- Node.conf_match_prefix in the source. -/
def conf_match_pre : String := "by_"
def conf_default_key : String := "__default"
def conf_priority_section : String := conf_match_pre ++ "id"

end Node

/-- Python str.startswith, on the character lists of the strings. -/
def strStartsWith (s pre : String) : Bool := pre.data.isPrefixOf s.data

/-- Python s[n:] (drop the first n characters). -/
def strDropChars (s : String) (n : Nat) : String := ⟨s.data.drop n⟩

/-- Python len() of a string, in characters. -/
def strLen (s : String) : Nat := s.data.length

/-! ### Node.apply_conf -/

/-- list.extend on the stored attribute value
(getattr(self, k).extend(...)).  The source only reaches this with a
list-valued attribute (every prior store through the appendable branch is
a list and the four keep_default attributes are initialized to lists);
a non-list here would raise AttributeError in Python. -/
def extendList (cur : Option Val) (ys : List Val) : Val :=
  match cur with
  | some (.vlist xs) => .vlist (xs ++ ys)
  | _ => .vlist ys

/-- The inner closure `apply` of Node.apply_conf (nodes.py lines 83-94):
one contribution of value v to attribute k.  For an appendable key the
attribute is replaced by the (deep-copied) w_list of v when any of
default, (k not in k_d and k not in o), not hasattr(self, k) holds,
otherwise extended; afterwards, unless default, k is marked in o.  A
non-appendable key is replaced unconditionally. -/
def applyA (c_a k_d : List String) (st : NodeSt × Overr) (k : String) (v : Val)
    (default : Bool) : NodeSt × Overr :=
  if k ∈ c_a then
    let s2 :=
      if default ∨ (k ∉ k_d ∧ k ∉ st.2) ∨ (st.1.attrs k).isNone then
        st.1.set k (.vlist (w_list v))
      else
        st.1.set k (extendList (st.1.attrs k) (w_list v))
    let o2 := if default then st.2 else st.2.insert k
    (s2, o2)
  else (st.1.set k v, st.2)

/-- First loop of r_apply (nodes.py lines 97-102): apply the normal
(non-matcher, non-priority) keys of the scope el; at the outermost scope
of a clean pass (el == conf and clean) they are applied with
default=True. -/
def normalPhase (c_a k_d : List String) (conf el : Val) (clean : Bool)
    (st : NodeSt × Overr) : NodeSt × Overr :=
  (dictEntriesS el).foldl
    (fun st kv =>
      if kv.1 ≠ Node.conf_priority_section ∧ ¬ strStartsWith kv.1 Node.conf_match_pre then
        if Val.beq el conf && clean then applyA c_a k_d st kv.1 kv.2 true
        else applyA c_a k_d st kv.1 kv.2 false
      else st) st

/-- The `if d in el: for a in d_conf: apply(a, d_conf[a], ...)` block run
before recursing into a matched branch (nodes.py lines 111-114). -/
def applyDefaults (c_a k_d : List String) (el : Val) (st : NodeSt × Overr) :
    NodeSt × Overr :=
  match dictLookup el (.vstr Node.conf_default_key) with
  | some dconf =>
      (dictEntriesS dconf).foldl (fun st kv => applyA c_a k_d st kv.1 kv.2 false) st
  | none => st

/-- Third block of r_apply (nodes.py lines 116-125): if the scope has a
by_id section containing self.id, apply that section's default sub-dict
(as ordinary contributions), then every non-default key of the
id-specific sub-dict with default=True.  The id attribute is read from
the current state; Node.__init__ always sets it, so the missing-id branch
is unreachable. -/
def priorityPhase (c_a k_d : List String) (el : Val) (st : NodeSt × Overr) :
    NodeSt × Overr :=
  match dictLookup el (.vstr Node.conf_priority_section) with
  | none => st
  | some psec =>
    match st.1.attrs "id" with
    | none => st
    | some idv =>
      match dictLookup psec idv with
      | none => st
      | some pconf =>
        let st1 :=
          match dictLookup psec (.vstr Node.conf_default_key) with
          | some dconf =>
              (dictEntriesS dconf).foldl
                (fun st kv => applyA c_a k_d st kv.1 kv.2 false) st
          | none => st
        (dictEntriesS pconf).foldl
          (fun st kv =>
            if kv.1 ≠ Node.conf_default_key then applyA c_a k_d st kv.1 kv.2 true
            else st) st1

/-- The matched-value loop `for v in attr: if v in el[k]: ...` of r_apply
(nodes.py lines 108-115): for each value of the host attribute found
among the branch keys, apply the scope's default block and recurse (the
recursive call r_apply(subconf, ...) is the parameter recur). -/
def valsLoop (recur : Val → NodeSt × Overr → NodeSt × Overr)
    (c_a k_d : List String) (el vk : Val) :
    List Val → NodeSt × Overr → NodeSt × Overr
  | [], st => st
  | v :: rest, st =>
    let st2 :=
      match dictLookup vk v with
      | some subconf => recur subconf (applyDefaults c_a k_d el st)
      | none => st
    valsLoop recur c_a k_d el vk rest st2

/-- Second loop of r_apply (nodes.py lines 104-115): for every matcher key
(by_xxx except by_id) whose attribute the host has, run valsLoop over the
w_list of the current attribute value. -/
def matchLoop (recur : Val → NodeSt × Overr → NodeSt × Overr)
    (c_a k_d : List String) (el : Val) :
    List (String × Val) → NodeSt × Overr → NodeSt × Overr
  | [], st => st
  | (k, vk) :: rest, st =>
    let st2 :=
      if k ≠ Node.conf_priority_section ∧ strStartsWith k Node.conf_match_pre then
        match st.1.attrs (strDropChars k (strLen Node.conf_match_pre)) with
        | some a => valsLoop recur c_a k_d el vk (w_list a) st
        | none => st
      else st
    matchLoop recur c_a k_d el rest st2

/-- The recursive document walk r_apply of Node.apply_conf (nodes.py lines
96-125): normal keys, then matcher keys (recursing into matched branches
with clean=False), then the by_id priority section.  The recursion
descends strictly into sub-values of el, so a fuel of sizeOf el (see
apply_conf and r_apply_fuel_eq) can never run out; fuel 0 is
unreachable. -/
def r_apply (c_a k_d : List String) (conf : Val) :
    Nat → Val → NodeSt × Overr → Bool → NodeSt × Overr
  | 0, _, st, _ => st
  | fuel + 1, el, st, clean =>
    let st1 := normalPhase c_a k_d conf el clean st
    let st2 := matchLoop (fun sub st => r_apply c_a k_d conf fuel sub st false)
      c_a k_d el (dictEntriesS el) st1
    priorityPhase c_a k_d el st2

/-- The clean step of Node.apply_conf (nodes.py lines 133-137): set every
attribute in set(conf_appendable) ∩ conf_keep_default to the empty
list. -/
def clean_appendable (n : NodeSt) : NodeSt :=
  (Node.conf_appendable.filter (fun f => f ∈ Node.conf_keep_default)).foldl
    (fun m f => m.set f (.vlist [])) n

/-- Fuel with which apply_conf runs the walk; any value at least the
dict-nesting depth of the document works, and vsize strictly bounds that
depth. -/
def confFuel (conf : Val) : Nat := Val.vsize conf

/-- Node.apply_conf(conf, clean) (nodes.py lines 81-138): optionally clean
the four appendable keep_default attributes, then walk the document from
its root with an empty overridden dict. -/
def apply_conf (n : NodeSt) (conf : Val) (clean : Bool) : NodeSt :=
  let n1 := if clean then clean_appendable n else n
  (r_apply Node.conf_appendable Node.conf_keep_default conf (confFuel conf) conf
    (n1, []) clean).1

/-! ### NodeManager._conf_assign_once -/

/-- assigned[ak] (Python dict lookup; ak is always a key, so the missing
case, mapped to None, is unreachable). -/
def assignedLookup (assigned : List (Val × Val)) (ak : Val) : Val :=
  ((assigned.find? (fun kv => Val.beq kv.1 ak)).map (·.2)).getD .vnone

/-- assigned[ak] = idv. -/
def assignedSet (assigned : List (Val × Val)) (ak : Val) (idv : Val) :
    List (Val × Val) :=
  assigned.map (fun kv => if Val.beq kv.1 ak then (kv.1, idv) else kv)

/-- self.id of a host as a value (Node.__init__ always sets id, so the
missing case, mapped to None, is unreachable). -/
def nodeIdVal (n : NodeSt) : Val := (n.attrs "id").getD .vnone

/-- The `for v in attr` loop of _conf_assign_once (nodes.py lines
546-551): at the first attribute value equal to the candidate ak, apply
the candidate's sub-document with clean=False, record assigned[ak] =
node.id (the id attribute as it stands after the apply), and break.
ak is a key of onceSec by construction, so the missing-lookup case is
unreachable. -/
def onceVLoop (onceSec ak : Val) (node : NodeSt) (assigned : List (Val × Val)) :
    List Val → NodeSt × List (Val × Val)
  | [] => (node, assigned)
  | v :: rest =>
    if Val.beq v ak then
      match dictLookup onceSec ak with
      | some once_conf =>
          let node2 := apply_conf node once_conf false
          (node2, assignedSet assigned ak (nodeIdVal node2))
      | none => (node, assigned)
    else onceVLoop onceSec ak node assigned rest

/-- The `for node in self.nodes.values()` loop of _conf_assign_once
(nodes.py lines 543-553) for one candidate value ak: scan hosts in
order; a host is examined only when it has the attribute and
`not assigned[ak]` (Python truthiness of the recorded id!); after each
host, break when assigned[ak] is truthy. -/
def onceNodeLoop (attr_name : String) (onceSec ak : Val) :
    List NodeSt → List (Val × Val) → List NodeSt × List (Val × Val)
  | [], assigned => ([], assigned)
  | node :: rest, assigned =>
    let step :=
      match node.attrs attr_name with
      | some av =>
          if ¬ pyTruthy (assignedLookup assigned ak) then
            onceVLoop onceSec ak node assigned (w_list av)
          else (node, assigned)
      | none => (node, assigned)
    if pyTruthy (assignedLookup step.2 ak) then (step.1 :: rest, step.2)
    else
      let tail := onceNodeLoop attr_name onceSec ak rest step.2
      (step.1 :: tail.1, tail.2)

/-- NodeManager._conf_assign_once (nodes.py lines 535-553): for every
once_-prefixed key of the manager configuration, build the assignment
ledger over the rule's candidate values and scan the hosts for each
candidate in turn.  The host dict's values() are modelled as a list in
iteration order. -/
def conf_assign_once (conf : Val) (nodes : List NodeSt) : List NodeSt :=
  (dictEntriesS conf).foldl
    (fun nodes kv =>
      if strStartsWith kv.1 Node.conf_once_pre then
        let attr_name := strDropChars kv.1
          (strLen (Node.conf_once_pre ++ Node.conf_match_pre))
        let assigned0 := (dictKeys kv.2).map (fun c => (c, Val.vnone))
        ((dictKeys kv.2).foldl
          (fun (p : List NodeSt × List (Val × Val)) ak =>
            onceNodeLoop attr_name kv.2 ak p.1 p.2)
          (nodes, assigned0)).1
      else nodes) nodes

/-! ### NodeFilter -/

/-- NodeFilter._do_filter._to_set (nodes.py lines 615-618): a string or a
non-iterable becomes a one-element set, an iterable becomes the set of
its elements (a dict yields its keys).  Sets are modelled as lists; only
non-emptiness of intersections is consulted, so duplicates are
irrelevant. -/
def to_set : Val → List Val
  | .vstr s => [.vstr s]
  | .vlist xs => xs
  | .vdict kvs => kvs.map (·.1)
  | v => [v]

/-- len(a ∩ b) > 0 on the modelled sets. -/
def intersectionNonempty (a b : List Val) : Bool :=
  a.any (fun x => b.any (fun y => Val.beq x y))

/-- Python node.get(attr): None when the key is absent. -/
def nodeGet (node : Val) (attr : String) : Val :=
  (dictLookup node (.vstr attr)).getD .vnone

/-- self.filters[attr]; only called with attr a key of filters, so the
missing case, mapped to None, is unreachable. -/
def filtersGet (filters : List (String × Val)) (attr : String) : Val :=
  ((filters.find? (fun kv => kv.1 = attr)).map (·.2)).getD .vnone

/-- NodeFilter._do_filter (nodes.py lines 611-624): keep the records whose
value for attr intersects the accepted set. -/
def do_filter (filters : List (String × Val)) (nodes_info : List Val)
    (attr : String) : List Val :=
  nodes_info.filter (fun node =>
    intersectionNonempty (to_set (nodeGet node attr))
      (to_set (filtersGet filters attr)))

/-- NodeFilter._prepare_filter_attrs (nodes.py lines 599-606): every
filter key except the two reserved flags, kept only when its value is
non-empty. -/
def prepare_filter_attrs (filters : List (String × Val)) : List String :=
  let filter_attrs := (filters.map (·.1)).filter
    (fun attr => attr ∉ ["check_master", "online"])
  filter_attrs.filter (fun attr => 0 < pyLen (filtersGet filters attr))

/-- NodeFilter._online_filter (nodes.py lines 608-609). -/
def online_filter (nodes_info : List Val) : List Val :=
  nodes_info.filter (fun node => pyTruthy (nodeGet node "online"))

/-- NodeFilter.filter_nodes (nodes.py lines 588-597): narrow by each
prepared attribute in turn.  Line 596 calls self._online_filter on the
result and discards the returned list; the discarded call is kept here
verbatim. -/
def filter_nodes (filters : List (String × Val)) (nodes_info : List Val) :
    List Val :=
  let filtered_nodes := nodes_info
  let filter_attrs := prepare_filter_attrs filters
  let filtered_nodes := filter_attrs.foldl
    (fun fn attr => do_filter filters fn attr) filtered_nodes
  let _ := online_filter filtered_nodes
  filtered_nodes

/-! ### NodeManager._check_filtration_results and _nodes_init -/

/-- NodeManager._check_filtration_results (nodes.py lines 518-533): raise
AllNodesFiltered when the raw inventory is non-empty and the filtered
result empty.  The two elif branches only log; the second elif's
condition compares the count all_nodes_num with the list filtered_nodes,
which in Python 2 is False (a number orders below a list), so no branch
can raise there. -/
def check_filtration_results (nodes_json filtered_nodes : List Val) :
    Except String Unit :=
  let all_nodes_num := nodes_json.length
  let filtered_nodes_num := filtered_nodes.length
  if 0 < all_nodes_num ∧ filtered_nodes_num = 0 then
    .error "AllNodesFiltered"
  else
    .ok ()

/-- The filtration part of NodeManager._nodes_init (nodes.py lines
479-484): the set of records from which hosts are then built — the
result of filter_nodes, after _check_filtration_results has passed. -/
def nodes_init_filtered (filters : List (String × Val))
    (nodes_json : List Val) : Except String (List Val) :=
  let filtered_nodes := filter_nodes filters nodes_json
  match check_filtration_results nodes_json filtered_nodes with
  | .error e => .error e
  | .ok _ => .ok filtered_nodes

/-! ### Node.check_code and Node.exec_cmd -/

/-- Python truthiness of the ok_codes argument (None or a list). -/
def okCodesTruthy : Option (List Int) → Bool
  | none => false
  | some l => ¬ l.isEmpty

/-- Node.check_code (nodes.py lines 223-229), as the predicate "a warning
is logged": warn iff the exit code is truthy (non-zero) and
(not ok_codes or code not in ok_codes) — short-circuit, so a None list
is never indexed. -/
def check_code (code : Int) (ok_codes : Option (List Int)) : Bool :=
  if code ≠ 0 then
    if ¬ okCodesTruthy ok_codes then true
    else decide (code ∉ ok_codes.getD [])
  else false

/-- os.path.join for the relative second components used in exec_cmd. -/
def pathJoin (a b : String) : String := a ++ "/" ++ b

/-- os.path.basename: the part after the last separator. -/
def baseName (s : String) : String :=
  ⟨(s.data.reverse.takeWhile (fun c => c ≠ '/')).reverse⟩

/-- os.path.sep in scr. -/
def strContainsSep (s : String) : Bool := s.data.contains '/'

/-- Python dict assignment m[k] = v for the string-keyed result maps:
overwrite in place when the key exists, append otherwise. -/
def dictSet (m : List (String × String)) (k v : String) :
    List (String × String) :=
  if m.any (fun kv => kv.1 = k) then
    m.map (fun kv => if kv.1 = k then (k, v) else kv)
  else m ++ [(k, v)]

/-- A script entry of Node.scripts: either a plain name/path, or a
one-entry dict mapping the script to its own environment override
(scr.keys()[0] / scr.values()[0] in the source). -/
inductive ScriptEntry where
  | plain (scr : String)
  | withEnv (scr env : String)

/-- The script name of an entry (the key used in mapscr). -/
def ScriptEntry.name : ScriptEntry → String
  | .plain scr => scr
  | .withEnv scr _ => scr

/-- The external collaborators of Node.exec_cmd, as oracles: the remote
transport utils.ssh_node (returning stdout, stderr, exit code for a
command text or script path run with given environment; its other
arguments, fixed per host, are omitted) and the filesystem write
(open(dfile, 'w').write, returning success; utils.mdir has no modelled
effect). -/
structure Transport where
  ssh : String → String → String × String × Int
  writeOk : String → String → Bool

/-- The per-host fields read by Node.exec_cmd.  cluster is the
%s-rendering of self.cluster. -/
structure ExecNode where
  id : Int
  ip : String
  cluster : String
  outdir : String
  rqdir : String
  env_vars : String
  outputs_timestamp : Bool
  outputs_timestamp_str : String
  cmds : List (List (String × String))
  scripts : List ScriptEntry

/-- The results and log of one Node.exec_cmd run: the two label→path maps
it returns plus the error/warning lines it logs (info/debug lines are not
modelled). -/
structure ExecResult where
  mapcmds : List (String × String)
  mapscr : List (String × String)
  log : List String

/-- One iteration of the `for cmd in c` loop of Node.exec_cmd (nodes.py
lines 150-170): record mapcmds[cmd] = dfile, then unless fake run the
command, check its exit code (possibly logging a warning), and write the
output (logging an error when the write fails — the bare except around
the write). -/
def cmdStep (t : Transport) (n : ExecNode) (ddir : String) (fake : Bool)
    (ok_codes : Option (List Int))
    (acc : List (String × String) × List String) (kv : String × String) :
    List (String × String) × List String :=
  let dfile0 := pathJoin ddir ("node-" ++ toString n.id ++ "-" ++ n.ip ++ "-" ++ kv.1)
  let dfile := if n.outputs_timestamp then dfile0 ++ n.outputs_timestamp_str else dfile0
  let mapcmds := dictSet acc.1 kv.1 dfile
  if fake then (mapcmds, acc.2)
  else
    let r := t.ssh kv.2 n.env_vars
    let log1 :=
      if check_code r.2.2 ok_codes then
        acc.2 ++ ["warning: cmd " ++ kv.2 ++ " exited " ++ toString r.2.2 ++
          " error: " ++ r.2.1]
      else acc.2
    let log2 :=
      if t.writeOk dfile r.1 then log1
      else log1 ++ ["error: cant write to file " ++ dfile]
    (mapcmds, log2)

/-- One iteration of the `for scr in scripts` loop of Node.exec_cmd
(nodes.py lines 175-205): resolve the script path (taken verbatim when it
contains a separator, under rqdir/scripts otherwise), record
mapscr[scr] = dfile, then unless fake run it with its own environment
override if present, check the exit code and write the output as for
commands. -/
def scrStep (t : Transport) (n : ExecNode) (ddir : String) (fake : Bool)
    (ok_codes : Option (List Int))
    (acc : List (String × String) × List String) (s : ScriptEntry) :
    List (String × String) × List String :=
  let env := match s with
    | .withEnv _ e => e
    | .plain _ => n.env_vars
  let f := if strContainsSep s.name then s.name
    else pathJoin (pathJoin n.rqdir Node.skey) s.name
  let dfile0 := pathJoin ddir ("node-" ++ toString n.id ++ "-" ++ n.ip ++ "-" ++ baseName f)
  let dfile := if n.outputs_timestamp then dfile0 ++ n.outputs_timestamp_str else dfile0
  let mapscr := dictSet acc.1 s.name dfile
  if fake then (mapscr, acc.2)
  else
    let r := t.ssh f env
    let log1 :=
      if check_code r.2.2 ok_codes then
        acc.2 ++ ["warning: script " ++ f ++ " exited " ++ toString r.2.2 ++
          " error: " ++ r.2.1]
      else acc.2
    let log2 :=
      if t.writeOk dfile r.1 then log1
      else log1 ++ ["error: cant write to file " ++ dfile]
    (mapscr, log2)

/-- Node.exec_cmd (nodes.py lines 140-206).  Python 2's sorted() on lists
of dicts/mixed entries orders by its cross-type rules; the two sorts are
parameters, constrained to permutations where a theorem needs it.  The
in-place reassignment self.cmds = sorted(self.cmds) does not affect the
returned maps and is not modelled. -/
def exec_cmd (t : Transport) (n : ExecNode)
    (sortCmds : List (List (String × String)) → List (List (String × String)))
    (sortScr : List ScriptEntry → List ScriptEntry)
    (fake : Bool) (ok_codes : Option (List Int)) : ExecResult :=
  let sn := "node-" ++ toString n.id
  let cl := "cluster-" ++ n.cluster
  let ddir := pathJoin (pathJoin (pathJoin n.outdir Node.ckey) cl) sn
  let cres := (sortCmds n.cmds).foldl
    (fun acc c => c.foldl (cmdStep t n ddir fake ok_codes) acc) ([], [])
  let sres := (sortScr n.scripts).foldl (scrStep t n ddir fake ok_codes)
    ([], cres.2)
  ⟨cres.1, sres.1, sres.2⟩

/-! ### Helper lemmas -/

theorem NodeSt.set_attrs (n : NodeSt) (k : String) (v : Val) (a : String) :
    (n.set k v).attrs a = if a = k then some v else n.attrs a := rfl

/-- The clean step sets exactly the keep_default attributes to the empty
list and leaves every other attribute unchanged. -/
theorem clean_appendable_attrs (n : NodeSt) (a : String) :
    (clean_appendable n).attrs a =
      if a ∈ Node.conf_keep_default then some (.vlist []) else n.attrs a := by
  have h : clean_appendable n =
      (((n.set Node.ckey (.vlist [])).set Node.skey (.vlist [])).set Node.fkey
        (.vlist [])).set Node.flkey (.vlist []) := rfl
  rw [h]
  by_cases hm : a ∈ Node.conf_keep_default
  · rw [if_pos hm]
    simp only [Node.conf_keep_default, List.mem_cons, List.not_mem_nil, or_false] at hm
    rcases hm with h1 | h1 | h1 | h1 <;> subst h1 <;>
      simp [NodeSt.set, Node.skey, Node.ckey, Node.fkey, Node.flkey]
  · rw [if_neg hm]
    simp only [Node.conf_keep_default, List.mem_cons, List.not_mem_nil, or_false,
      not_or] at hm
    obtain ⟨h1, h2, h3, h4⟩ := hm
    simp [NodeSt.set, h1, h2, h3, h4]

/-! ### Claim C1 -/

/-- Claim C1, counterexample: in one resolution pass (clean=False) over a
document contributing [B] to cmds, a host whose cmds are [A] ends with
cmds [A, B] — the pass's first (and only) contribution to the
keep_default attribute cmds appended instead of replacing the prior
value outright as the claim states. -/
theorem C1_counterexample :
    (apply_conf
      (NodeSt.ofList [("id", .vint 1), ("cmds", .vlist [.vstr "A"]),
        ("scripts", .vlist []), ("files", .vlist []), ("filelists", .vlist []),
        ("put", .vlist [])])
      (.vdict [(.vstr "cmds", .vlist [.vstr "B"])]) false).attrs Node.ckey =
      some (.vlist [.vstr "A", .vstr "B"]) ∧
    some (Val.vlist [Val.vstr "A", Val.vstr "B"]) ≠ some (Val.vlist [Val.vstr "B"]) :=
  ⟨rfl, by simp⟩

theorem kd_sub_ca {k : String} (h : k ∈ Node.conf_keep_default) :
    k ∈ Node.conf_appendable := by
  simp only [Node.conf_keep_default, List.mem_cons, List.not_mem_nil, or_false] at h
  rcases h with h | h | h | h <;> subst h <;> decide

/-- Claim C1, amended: per contribution (the inner apply closure, with the
Node class constants): a non-appendable attribute is always replaced; an
appendable contribution with default=True replaces and leaves the
overridden set unmarked; for an appendable non-keep_default attribute
(put, logs) a non-default contribution replaces when the attribute is
not yet marked overridden and appends when it is, marking it; for a
keep_default attribute (cmds, scripts, files, filelists) that the host
has, every non-default contribution appends, marking it. -/
theorem C1_amended_theorem (st : NodeSt × Overr) (k : String) (v : Val) :
    (k ∉ Node.conf_appendable →
      ∀ d, (applyA Node.conf_appendable Node.conf_keep_default st k v d).1.attrs k
          = some v ∧
        (applyA Node.conf_appendable Node.conf_keep_default st k v d).2 = st.2) ∧
    (k ∈ Node.conf_appendable →
      (applyA Node.conf_appendable Node.conf_keep_default st k v true).1.attrs k
          = some (.vlist (w_list v)) ∧
      (applyA Node.conf_appendable Node.conf_keep_default st k v true).2 = st.2) ∧
    (k ∈ Node.conf_appendable → k ∉ Node.conf_keep_default →
      (k ∉ st.2 →
        (applyA Node.conf_appendable Node.conf_keep_default st k v false).1.attrs k
          = some (.vlist (w_list v))) ∧
      (∀ xs, k ∈ st.2 → st.1.attrs k = some (.vlist xs) →
        (applyA Node.conf_appendable Node.conf_keep_default st k v false).1.attrs k
          = some (.vlist (xs ++ w_list v))) ∧
      (applyA Node.conf_appendable Node.conf_keep_default st k v false).2
        = st.2.insert k) ∧
    (k ∈ Node.conf_keep_default →
      ∀ xs, st.1.attrs k = some (.vlist xs) →
        (applyA Node.conf_appendable Node.conf_keep_default st k v false).1.attrs k
          = some (.vlist (xs ++ w_list v)) ∧
        (applyA Node.conf_appendable Node.conf_keep_default st k v false).2
          = st.2.insert k) := by
  refine ⟨?_, ?_, ?_, ?_⟩
  · intro hk d
    unfold applyA
    rw [if_neg hk]
    simp [NodeSt.set]
  · intro hk
    unfold applyA
    rw [if_pos hk, if_pos (Or.inl rfl)]
    simp [NodeSt.set]
  · intro hk hkd
    refine ⟨?_, ?_, ?_⟩
    · intro ho
      unfold applyA
      rw [if_pos hk, if_pos (Or.inr (Or.inl ⟨hkd, ho⟩))]
      simp [NodeSt.set]
    · intro xs ho hattr
      unfold applyA
      rw [if_pos hk, if_neg ?_]
      · simp [NodeSt.set, hattr, extendList]
      · rintro (h | h | h)
        · simp at h
        · exact h.2 ho
        · rw [hattr] at h; simp at h
    · unfold applyA
      rw [if_pos hk]
      simp
  · intro hkd xs hattr
    unfold applyA
    rw [if_pos (kd_sub_ca hkd), if_neg ?_]
    · constructor
      · simp [NodeSt.set, hattr, extendList]
      · simp
    · rintro (h | h | h)
      · simp at h
      · exact h.1 hkd
      · rw [hattr] at h; simp at h

/-- Witness for C1_amended_theorem: concrete contributions showing each
regime (scalar replace, default replace, put first-replace and
subsequent-append, cmds always-append). -/
theorem C1_amended_witness :
    (applyA Node.conf_appendable Node.conf_keep_default
      (NodeSt.ofList [("put", .vlist [.vstr "P0"])], []) Node.pkey (.vstr "P") false).1.attrs
        Node.pkey = some (.vlist [.vstr "P"]) ∧
    (applyA Node.conf_appendable Node.conf_keep_default
      (NodeSt.ofList [("put", .vlist [.vstr "P0"])], [Node.pkey]) Node.pkey (.vstr "P") false).1.attrs
        Node.pkey = some (.vlist [.vstr "P0", .vstr "P"]) ∧
    (applyA Node.conf_appendable Node.conf_keep_default
      (NodeSt.ofList [("cmds", .vlist [.vstr "A"])], []) Node.ckey (.vstr "B") false).1.attrs
        Node.ckey = some (.vlist [.vstr "A", .vstr "B"]) ∧
    (applyA Node.conf_appendable Node.conf_keep_default
      (NodeSt.ofList [("ip", .vstr "old")], []) "ip" (.vstr "new") false).1.attrs
        "ip" = some (.vstr "new") := by
  refine ⟨?_, ?_, ?_, ?_⟩
  · exact ((C1_amended_theorem _ Node.pkey _).2.2.1 (by decide) (by decide)).1
      (by simp)
  · exact ((C1_amended_theorem _ Node.pkey _).2.2.1 (by decide) (by decide)).2.1
      [.vstr "P0"] (by simp) rfl
  · exact ((C1_amended_theorem _ Node.ckey _).2.2.2 (by decide) [.vstr "A"] rfl).1
  · exact ((C1_amended_theorem _ "ip" _).1 (by decide) false).1

/-! ### Claim C4 -/

/-- Claim C4: with clean=True, exactly the four list attributes cmds,
scripts, files, filelists are set to the empty list by the pre-walk reset
step, every other attribute (in particular put and logs) being left
unchanged by it, and the walk then starts from that reset state; with
clean=False the walk starts from the unmodified state, no attribute being
cleared. -/
theorem C4_reset_theorem (n : NodeSt) (conf : Val) :
    (∀ k, k ∈ [Node.ckey, Node.skey, Node.fkey, Node.flkey] →
      (clean_appendable n).attrs k = some (.vlist [])) ∧
    (∀ k, k ∉ [Node.ckey, Node.skey, Node.fkey, Node.flkey] →
      (clean_appendable n).attrs k = n.attrs k) ∧
    apply_conf n conf true =
      (r_apply Node.conf_appendable Node.conf_keep_default conf (confFuel conf)
        conf (clean_appendable n, []) true).1 ∧
    apply_conf n conf false =
      (r_apply Node.conf_appendable Node.conf_keep_default conf (confFuel conf)
        conf (n, []) false).1 := by
  refine ⟨?_, ?_, rfl, rfl⟩
  · intro k hk
    rw [clean_appendable_attrs, if_pos ?_]
    simp only [List.mem_cons, List.not_mem_nil, or_false] at hk
    simp only [Node.conf_keep_default, List.mem_cons, List.not_mem_nil, or_false]
    tauto
  · intro k hk
    rw [clean_appendable_attrs, if_neg ?_]
    simp only [List.mem_cons, List.not_mem_nil, or_false, not_or] at hk
    simp only [Node.conf_keep_default, List.mem_cons, List.not_mem_nil, or_false,
      not_or]
    tauto

/-- Witness for C4_reset_theorem: on a concrete host the reset step clears
cmds but leaves put and logs untouched. -/
theorem C4_reset_witness :
    (clean_appendable (NodeSt.ofList [("cmds", .vlist [.vstr "c"]),
      ("put", .vlist [.vstr "p"]), ("logs", .vlist [.vstr "l"])])).attrs Node.ckey
      = some (.vlist []) ∧
    (clean_appendable (NodeSt.ofList [("cmds", .vlist [.vstr "c"]),
      ("put", .vlist [.vstr "p"]), ("logs", .vlist [.vstr "l"])])).attrs Node.pkey
      = (NodeSt.ofList [("cmds", .vlist [.vstr "c"]),
          ("put", .vlist [.vstr "p"]), ("logs", .vlist [.vstr "l"])]).attrs Node.pkey ∧
    (clean_appendable (NodeSt.ofList [("cmds", .vlist [.vstr "c"]),
      ("put", .vlist [.vstr "p"]), ("logs", .vlist [.vstr "l"])])).attrs Node.lkey
      = (NodeSt.ofList [("cmds", .vlist [.vstr "c"]),
          ("put", .vlist [.vstr "p"]), ("logs", .vlist [.vstr "l"])]).attrs Node.lkey := by
  refine ⟨?_, ?_, ?_⟩
  · exact (C4_reset_theorem _ (.vdict [])).1 Node.ckey (by decide)
  · exact (C4_reset_theorem _ (.vdict [])).2.1 Node.pkey (by decide)
  · exact (C4_reset_theorem _ (.vdict [])).2.1 Node.lkey (by decide)

/-! ### Claim C5 -/

/-- Claim C5 fails on the code: with the control-plane pseudo-host (id 0,
as built by _fuel_node_init) first in iteration order and a second host
with the same role, one run of _conf_assign_once applies the once-rule's
payload to BOTH hosts: assigned[ak] records id 0, which is falsy in
Python, so the claim guard `not assigned[ak]` and the break guard
`if assigned[ak]` both treat the value as unclaimed. -/
theorem C5_once_failing_eval :
    nodeIdVal (NodeSt.ofList [("id", .vint 0), ("roles", .vlist [.vstr "r"]),
      ("cmds", .vlist []), ("scripts", .vlist []), ("files", .vlist []),
      ("filelists", .vlist []), ("put", .vlist [])]) = .vint 0 ∧
    ((conf_assign_once
        (.vdict [(.vstr "once_by_roles", .vdict
          [(.vstr "r", .vdict [(.vstr "cmds", .vlist [.vstr "X"])])])])
        [NodeSt.ofList [("id", .vint 0), ("roles", .vlist [.vstr "r"]),
          ("cmds", .vlist []), ("scripts", .vlist []), ("files", .vlist []),
          ("filelists", .vlist []), ("put", .vlist [])],
         NodeSt.ofList [("id", .vint 1), ("roles", .vlist [.vstr "r"]),
          ("cmds", .vlist []), ("scripts", .vlist []), ("files", .vlist []),
          ("filelists", .vlist []), ("put", .vlist [])]]).map
      (fun n => n.attrs Node.ckey)) =
      [some (.vlist [.vstr "X"]), some (.vlist [.vstr "X"])] :=
  ⟨rfl, rfl⟩

/-! ### Claim C7 -/

/-- Claim C7 fails on the code: filter_nodes returns a record whose
online flag is unset — the separately-defined online narrowing step
(_online_filter, which would drop the record) is called on line 596 but
its result is discarded, so it is not composed into the returned set. -/
theorem C7_online_gap_eval :
    filter_nodes [] [.vdict [(.vstr "id", .vint 1), (.vstr "online", .vbool false)]]
      = [.vdict [(.vstr "id", .vint 1), (.vstr "online", .vbool false)]] ∧
    pyTruthy (nodeGet (.vdict [(.vstr "id", .vint 1), (.vstr "online", .vbool false)])
      "online") = false ∧
    online_filter [.vdict [(.vstr "id", .vint 1), (.vstr "online", .vbool false)]]
      = [] :=
  ⟨rfl, rfl, rfl⟩

/-! ### Claim C8 -/

/-- Claim C8: the filtration step of _nodes_init signals AllNodesFiltered
exactly when the raw inventory is non-empty and the filtered result
empty; in every other case (including an empty raw inventory) no error
is raised and the narrowed set — the filter_nodes result, possibly equal
to the input — is the one hosts are built from. -/
theorem C8_filtration_theorem (filters : List (String × Val))
    (nodes_json : List Val) :
    (nodes_init_filtered filters nodes_json = .error "AllNodesFiltered" ↔
      nodes_json ≠ [] ∧ filter_nodes filters nodes_json = []) ∧
    ((nodes_json = [] ∨ filter_nodes filters nodes_json ≠ []) →
      nodes_init_filtered filters nodes_json =
        .ok (filter_nodes filters nodes_json)) := by
  have hrw : nodes_init_filtered filters nodes_json =
      if 0 < nodes_json.length ∧ (filter_nodes filters nodes_json).length = 0 then
        Except.error "AllNodesFiltered"
      else Except.ok (filter_nodes filters nodes_json) := by
    by_cases hc : 0 < nodes_json.length ∧
        (filter_nodes filters nodes_json).length = 0
    · simp [nodes_init_filtered, check_filtration_results, hc]
    · simp only [nodes_init_filtered, check_filtration_results]
      rw [if_neg hc, if_neg hc]
  rw [hrw]
  by_cases hc : 0 < nodes_json.length ∧ (filter_nodes filters nodes_json).length = 0
  · rw [if_pos hc]
    constructor
    · constructor
      · intro _
        exact ⟨List.ne_nil_of_length_pos hc.1, List.length_eq_zero.mp hc.2⟩
      · intro _; rfl
    · intro hor
      exfalso
      rcases hor with h | h
      · rw [h] at hc; simp at hc
      · exact h (List.length_eq_zero.mp hc.2)
  · rw [if_neg hc]
    constructor
    · simp only [reduceCtorEq, false_iff, not_and]
      intro hne hF
      exact hc ⟨List.length_pos.mpr hne, by rw [hF]; rfl⟩
    · intro _; rfl

/-- Witness for C8_filtration_theorem: an empty raw inventory raises
nothing and yields the empty narrowed set. -/
theorem C8_filtration_witness :
    nodes_init_filtered [] ([] : List Val) = .ok (filter_nodes [] []) :=
  (C8_filtration_theorem [] []).2 (Or.inl rfl)

/-! ### Claim C10 -/

/-- Claim C10: check_code logs no warning for exit code 0 whatever the
accepted-codes list, and logs a warning exactly when the code is non-zero
and either no list was supplied or the code is absent from the supplied
list. -/
theorem C10_check_code_theorem :
    (∀ ok_codes, check_code 0 ok_codes = false) ∧
    (∀ (code : Int) (ok_codes : Option (List Int)),
      check_code code ok_codes = true ↔
        code ≠ 0 ∧ (ok_codes = none ∨ ∃ l, ok_codes = some l ∧ code ∉ l)) := by
  constructor
  · intro ok; simp [check_code]
  · intro code ok
    cases ok with
    | none =>
      by_cases h : code = 0 <;> simp [check_code, okCodesTruthy, h]
    | some l =>
      by_cases h : code = 0
      · simp [check_code, h]
      · cases l with
        | nil => simp [check_code, okCodesTruthy, h]
        | cons a as => simp [check_code, okCodesTruthy, h]

/-! ### Claim C6 -/

theorem mem_foldl_do_filter (filters : List (String × Val))
    (attrs : List String) :
    ∀ (nodes : List Val) (nd : Val),
      nd ∈ attrs.foldl (fun fn attr => do_filter filters fn attr) nodes ↔
        nd ∈ nodes ∧ ∀ attr ∈ attrs,
          intersectionNonempty (to_set (nodeGet nd attr))
            (to_set (filtersGet filters attr)) = true := by
  induction attrs with
  | nil => intro nodes nd; simp
  | cons a as ih =>
    intro nodes nd
    rw [List.foldl_cons, ih]
    simp only [do_filter, List.mem_filter, List.mem_cons, forall_eq_or_imp]
    tauto

/-- Claim C6: filter_nodes keeps a raw record iff, for every filter key
other than the two reserved flags whose accepted-value set is non-empty,
the record's value for that attribute (normalized to a set) intersects
the accepted set — AND across configured attributes, OR within one
attribute's values (intersection non-emptiness); the prepared attribute
list is exactly the non-reserved keys with non-empty value, and when it
is empty every record is kept (the whole input is returned). -/
theorem C6_filter_theorem (filters : List (String × Val)) (nodes : List Val)
    (nd : Val) :
    (nd ∈ filter_nodes filters nodes ↔
      nd ∈ nodes ∧ ∀ attr ∈ prepare_filter_attrs filters,
        intersectionNonempty (to_set (nodeGet nd attr))
          (to_set (filtersGet filters attr)) = true) ∧
    (∀ attr, attr ∈ prepare_filter_attrs filters ↔
      attr ∈ filters.map Prod.fst ∧ (attr ≠ "check_master" ∧ attr ≠ "online") ∧
        0 < pyLen (filtersGet filters attr)) ∧
    (prepare_filter_attrs filters = [] → filter_nodes filters nodes = nodes) := by
  refine ⟨?_, ?_, ?_⟩
  · simp only [filter_nodes]
    exact mem_foldl_do_filter filters (prepare_filter_attrs filters) nodes nd
  · intro attr
    simp only [prepare_filter_attrs, List.mem_filter, List.mem_cons,
      List.not_mem_nil, or_false, decide_eq_true_eq, not_or]
    constructor
    · rintro ⟨⟨h1, h2⟩, h3⟩
      exact ⟨h1, h2, by simpa using h3⟩
    · rintro ⟨h1, h2, h3⟩
      exact ⟨⟨h1, h2⟩, by simpa using h3⟩
  · intro h
    simp only [filter_nodes, h, List.foldl_nil]

/-- Witness for C6_filter_theorem: a record whose roles contain the single
accepted value survives a one-attribute filter. -/
theorem C6_filter_witness :
    (Val.vdict [(.vstr "id", .vint 1), (.vstr "roles", .vlist [.vstr "compute"])]) ∈
      filter_nodes [("roles", .vlist [.vstr "compute"])]
        [.vdict [(.vstr "id", .vint 1), (.vstr "roles", .vlist [.vstr "compute"])]] := by
  refine (C6_filter_theorem _ _ _).1.mpr ⟨by simp, ?_⟩
  intro attr hattr
  have hp : prepare_filter_attrs [("roles", .vlist [.vstr "compute"])] = ["roles"] := rfl
  rw [hp] at hattr
  simp only [List.mem_cons, List.not_mem_nil, or_false] at hattr
  subst hattr
  rfl

/-! ### Claim C9 -/

theorem dictSet_keys (m : List (String × String)) (k v a : String) :
    a ∈ (dictSet m k v).map Prod.fst ↔ a ∈ m.map Prod.fst ∨ a = k := by
  unfold dictSet
  by_cases hmem : m.any (fun kv => kv.1 = k)
  · rw [if_pos hmem]
    have hk : k ∈ m.map Prod.fst := by
      simp only [List.any_eq_true, decide_eq_true_eq] at hmem
      obtain ⟨kv, hkv, he⟩ := hmem
      exact List.mem_map.mpr ⟨kv, hkv, he⟩
    have hkeys : (m.map (fun kv => if kv.1 = k then (k, v) else kv)).map Prod.fst
        = m.map Prod.fst := by
      rw [List.map_map]
      apply List.map_congr_left
      intro kv _
      by_cases h : kv.1 = k
      · simp [h]
      · simp [h]
    rw [hkeys]
    constructor
    · exact Or.inl
    · rintro (h | h)
      · exact h
      · subst h; exact hk
  · rw [if_neg hmem]
    simp

theorem cmdStep_fst_eq (t t2 : Transport) (n : ExecNode) (ddir : String)
    (fake : Bool) (ok ok2 : Option (List Int))
    (acc acc2 : List (String × String) × List String) (kv : String × String)
    (h : acc.1 = acc2.1) :
    (cmdStep t n ddir fake ok acc kv).1 = (cmdStep t2 n ddir fake ok2 acc2 kv).1 := by
  cases fake <;> simp [cmdStep, h]

theorem cmdStep_fst_ex (t : Transport) (n : ExecNode) (ddir : String)
    (fake : Bool) (ok : Option (List Int))
    (acc : List (String × String) × List String) (kv : String × String) :
    ∃ d, (cmdStep t n ddir fake ok acc kv).1 = dictSet acc.1 kv.1 d := by
  cases fake <;> exact ⟨_, rfl⟩

theorem scrStep_fst_eq (t t2 : Transport) (n : ExecNode) (ddir : String)
    (fake : Bool) (ok ok2 : Option (List Int))
    (acc acc2 : List (String × String) × List String) (s : ScriptEntry)
    (h : acc.1 = acc2.1) :
    (scrStep t n ddir fake ok acc s).1 = (scrStep t2 n ddir fake ok2 acc2 s).1 := by
  cases s <;> cases fake <;> simp [scrStep, ScriptEntry.name, h]

theorem scrStep_fst_ex (t : Transport) (n : ExecNode) (ddir : String)
    (fake : Bool) (ok : Option (List Int))
    (acc : List (String × String) × List String) (s : ScriptEntry) :
    ∃ d, (scrStep t n ddir fake ok acc s).1 = dictSet acc.1 s.name d := by
  cases s <;> cases fake <;> exact ⟨_, rfl⟩

theorem foldl_cmdStep_fst_eq (t t2 : Transport) (n : ExecNode) (ddir : String)
    (fake : Bool) (ok ok2 : Option (List Int)) :
    ∀ (c : List (String × String)) (acc acc2 : List (String × String) × List String),
      acc.1 = acc2.1 →
      (c.foldl (cmdStep t n ddir fake ok) acc).1 =
        (c.foldl (cmdStep t2 n ddir fake ok2) acc2).1 := by
  intro c
  induction c with
  | nil => intro acc acc2 h; exact h
  | cons kv rest ih =>
    intro acc acc2 h
    exact ih _ _ (cmdStep_fst_eq t t2 n ddir fake ok ok2 acc acc2 kv h)

theorem foldl_cmds_fst_eq (t t2 : Transport) (n : ExecNode) (ddir : String)
    (fake : Bool) (ok ok2 : Option (List Int)) :
    ∀ (cs : List (List (String × String)))
      (acc acc2 : List (String × String) × List String), acc.1 = acc2.1 →
      (cs.foldl (fun acc c => c.foldl (cmdStep t n ddir fake ok) acc) acc).1 =
        (cs.foldl (fun acc c => c.foldl (cmdStep t2 n ddir fake ok2) acc) acc2).1 := by
  intro cs
  induction cs with
  | nil => intro acc acc2 h; exact h
  | cons c rest ih =>
    intro acc acc2 h
    exact ih _ _ (foldl_cmdStep_fst_eq t t2 n ddir fake ok ok2 c acc acc2 h)

theorem foldl_scrStep_fst_eq (t t2 : Transport) (n : ExecNode) (ddir : String)
    (fake : Bool) (ok ok2 : Option (List Int)) :
    ∀ (ss : List ScriptEntry) (acc acc2 : List (String × String) × List String),
      acc.1 = acc2.1 →
      (ss.foldl (scrStep t n ddir fake ok) acc).1 =
        (ss.foldl (scrStep t2 n ddir fake ok2) acc2).1 := by
  intro ss
  induction ss with
  | nil => intro acc acc2 h; exact h
  | cons s rest ih =>
    intro acc acc2 h
    exact ih _ _ (scrStep_fst_eq t t2 n ddir fake ok ok2 acc acc2 s h)

theorem foldl_cmdStep_keys (t : Transport) (n : ExecNode) (ddir : String)
    (fake : Bool) (ok : Option (List Int)) :
    ∀ (c : List (String × String)) (acc : List (String × String) × List String)
      (a : String),
      a ∈ (c.foldl (cmdStep t n ddir fake ok) acc).1.map Prod.fst ↔
        a ∈ acc.1.map Prod.fst ∨ a ∈ c.map Prod.fst := by
  intro c
  induction c with
  | nil => intro acc a; simp
  | cons kv rest ih =>
    intro acc a
    rw [List.foldl_cons, ih]
    obtain ⟨d, hd⟩ := cmdStep_fst_ex t n ddir fake ok acc kv
    rw [hd, dictSet_keys]
    simp only [List.map_cons, List.mem_cons]
    tauto

theorem foldl_cmds_keys (t : Transport) (n : ExecNode) (ddir : String)
    (fake : Bool) (ok : Option (List Int)) :
    ∀ (cs : List (List (String × String)))
      (acc : List (String × String) × List String) (a : String),
      a ∈ (cs.foldl (fun acc c => c.foldl (cmdStep t n ddir fake ok) acc) acc).1.map
          Prod.fst ↔
        a ∈ acc.1.map Prod.fst ∨ ∃ c ∈ cs, a ∈ c.map Prod.fst := by
  intro cs
  induction cs with
  | nil => intro acc a; simp
  | cons c rest ih =>
    intro acc a
    rw [List.foldl_cons, ih]
    rw [foldl_cmdStep_keys]
    simp only [List.mem_cons]
    constructor
    · rintro ((h | h) | ⟨c2, hc2, h⟩)
      · exact Or.inl h
      · exact Or.inr ⟨c, Or.inl rfl, h⟩
      · exact Or.inr ⟨c2, Or.inr hc2, h⟩
    · rintro (h | ⟨c2, hc2 | hc2, h⟩)
      · exact Or.inl (Or.inl h)
      · subst hc2; exact Or.inl (Or.inr h)
      · exact Or.inr ⟨c2, hc2, h⟩

theorem foldl_scrStep_keys (t : Transport) (n : ExecNode) (ddir : String)
    (fake : Bool) (ok : Option (List Int)) :
    ∀ (ss : List ScriptEntry) (acc : List (String × String) × List String)
      (a : String),
      a ∈ (ss.foldl (scrStep t n ddir fake ok) acc).1.map Prod.fst ↔
        a ∈ acc.1.map Prod.fst ∨ ∃ e ∈ ss, ScriptEntry.name e = a := by
  intro ss
  induction ss with
  | nil => intro acc a; simp
  | cons s rest ih =>
    intro acc a
    rw [List.foldl_cons, ih]
    obtain ⟨d, hd⟩ := scrStep_fst_ex t n ddir fake ok acc s
    rw [hd, dictSet_keys]
    constructor
    · rintro ((h | h) | ⟨e, he, h⟩)
      · exact Or.inl h
      · exact Or.inr ⟨s, List.mem_cons_self _ _, h.symm⟩
      · exact Or.inr ⟨e, List.mem_cons_of_mem _ he, h⟩
    · rintro (h | ⟨e, he, h⟩)
      · exact Or.inl (Or.inl h)
      · rcases List.mem_cons.mp he with he1 | he1
        · subst he1; exact Or.inl (Or.inr h.symm)
        · exact Or.inr ⟨e, he1, h⟩

/-- Claim C9: during one host's execution (fake=False), the returned
label→output-path maps are completely independent of the transport
outcomes and of the accepted-codes list — a failed output write is only
logged and an out-of-list exit code only produces a warning, neither
aborting the remaining commands and scripts — and the maps contain an
entry exactly for every command label and every script name of the
host. -/
theorem C9_exec_theorem (t t2 : Transport) (n : ExecNode)
    (sortCmds : List (List (String × String)) → List (List (String × String)))
    (sortScr : List ScriptEntry → List ScriptEntry)
    (ok ok2 : Option (List Int))
    (hc : (sortCmds n.cmds).Perm n.cmds) (hs : (sortScr n.scripts).Perm n.scripts) :
    ((exec_cmd t n sortCmds sortScr false ok).mapcmds =
        (exec_cmd t2 n sortCmds sortScr false ok2).mapcmds ∧
      (exec_cmd t n sortCmds sortScr false ok).mapscr =
        (exec_cmd t2 n sortCmds sortScr false ok2).mapscr) ∧
    (∀ label, label ∈ (exec_cmd t n sortCmds sortScr false ok).mapcmds.map Prod.fst ↔
      ∃ c ∈ n.cmds, label ∈ c.map Prod.fst) ∧
    (∀ s, s ∈ (exec_cmd t n sortCmds sortScr false ok).mapscr.map Prod.fst ↔
      ∃ e ∈ n.scripts, ScriptEntry.name e = s) := by
  simp only [exec_cmd]
  refine ⟨⟨?_, ?_⟩, ?_, ?_⟩
  · exact foldl_cmds_fst_eq t t2 n _ false ok ok2 (sortCmds n.cmds) _ _ rfl
  · exact foldl_scrStep_fst_eq t t2 n _ false ok ok2 (sortScr n.scripts) _ _ rfl
  · intro label
    rw [foldl_cmds_keys]
    simp only [List.map_nil, List.not_mem_nil, false_or]
    constructor
    · rintro ⟨c, hmem, h⟩
      exact ⟨c, hc.mem_iff.mp hmem, h⟩
    · rintro ⟨c, hmem, h⟩
      exact ⟨c, hc.mem_iff.mpr hmem, h⟩
  · intro s
    rw [foldl_scrStep_keys]
    simp only [List.map_nil, List.not_mem_nil, false_or]
    constructor
    · rintro ⟨e, hmem, h⟩
      exact ⟨e, hs.mem_iff.mp hmem, h⟩
    · rintro ⟨e, hmem, h⟩
      exact ⟨e, hs.mem_iff.mpr hmem, h⟩

/-- Witness for C9_exec_theorem: a host with one command, run against a
transport whose write always fails and which exits 2 (not in the
accepted list), produces the same result map as a run against an
all-succeeding transport. -/
theorem C9_exec_witness :
    (exec_cmd ⟨fun _ _ => ("", "boom", 2), fun _ _ => false⟩
      ⟨1, "ip", "c", "out", "rq", "", false, "", [[("uname", "uname -a")]],
        [ScriptEntry.plain "s"]⟩ id id false (some [0])).mapcmds =
    (exec_cmd ⟨fun _ _ => ("Linux x\n", "", 0), fun _ _ => true⟩
      ⟨1, "ip", "c", "out", "rq", "", false, "", [[("uname", "uname -a")]],
        [ScriptEntry.plain "s"]⟩ id id false none).mapcmds :=
  (C9_exec_theorem _ _ _ id id (some [0]) none (List.Perm.refl _)
    (List.Perm.refl _)).1.1

/-! ### Claim C3 -/

theorem Val.vsize_pos (v : Val) : 1 ≤ Val.vsize v := by
  cases v <;> simp [Val.vsize]

/-- The state of apply_conf just before the priority section of the
document root is processed: the root's normal keys and matcher keys
(with their recursive sub-walks) applied, the by_id section not yet. -/
def prePriority (c_a k_d : List String) (conf : Val) (clean : Bool)
    (st : NodeSt × Overr) : NodeSt × Overr :=
  let st1 := normalPhase c_a k_d conf conf clean st
  matchLoop (fun sub st => r_apply c_a k_d conf (confFuel conf - 1) sub st false)
    c_a k_d conf (dictEntriesS conf) st1

/-- apply_conf is the root priority phase applied to the prePriority
state: the document root's by_id section is processed after all of the
root's generic and matcher contributions. -/
theorem apply_conf_decompose (n : NodeSt) (conf : Val) (clean : Bool) :
    apply_conf n conf clean =
      (priorityPhase Node.conf_appendable Node.conf_keep_default conf
        (prePriority Node.conf_appendable Node.conf_keep_default conf clean
          (if clean then clean_appendable n else n, []))).1 := by
  have h1 : confFuel conf = (confFuel conf - 1) + 1 :=
    (Nat.succ_pred_eq_of_pos (Val.vsize_pos conf)).symm
  show (r_apply Node.conf_appendable Node.conf_keep_default conf (confFuel conf)
    conf (if clean then clean_appendable n else n, []) clean).1 = _
  rw [h1]
  rfl

theorem applyA_attrs_ne (c_a k_d : List String) (st : NodeSt × Overr)
    (k : String) (v : Val) (d : Bool) (a : String) (h : a ≠ k) :
    (applyA c_a k_d st k v d).1.attrs a = st.1.attrs a := by
  unfold applyA
  split
  · split <;> simp [NodeSt.set, h]
  · simp [NodeSt.set, h]

theorem applyA_attrs_self_default (c_a k_d : List String) (st : NodeSt × Overr)
    (k : String) (v : Val) :
    (applyA c_a k_d st k v true).1.attrs k =
      some (if k ∈ c_a then .vlist (w_list v) else v) := by
  by_cases hk : k ∈ c_a <;> simp [applyA, hk, NodeSt.set]

theorem priority_fold_last (c_a k_d : List String) :
    ∀ (l2 : List (String × Val)) (st : NodeSt × Overr) (k : String),
      (∀ x ∈ l2, x.1 ≠ k) →
      (l2.foldl (fun st kv =>
          if kv.1 ≠ Node.conf_default_key then applyA c_a k_d st kv.1 kv.2 true
          else st) st).1.attrs k = st.1.attrs k := by
  intro l2
  induction l2 with
  | nil => intro st k h; rfl
  | cons x rest ih =>
    intro st k h
    rw [List.foldl_cons, ih _ k (fun y hy => h y (List.mem_cons_of_mem _ hy))]
    by_cases hx : x.1 ≠ Node.conf_default_key
    · rw [if_pos hx]
      exact applyA_attrs_ne _ _ _ _ _ _ _
        (fun he => h x (List.mem_cons_self _ _) he.symm)
    · rw [if_neg hx]

theorem priorityPhase_attrs (c_a k_d : List String) (el : Val)
    (st : NodeSt × Overr) (psec idv pconf : Val) (k : String) (v : Val)
    (l1 l2 : List (String × Val))
    (hps : dictLookup el (.vstr Node.conf_priority_section) = some psec)
    (hid : st.1.attrs "id" = some idv)
    (hpc : dictLookup psec idv = some pconf)
    (hsplit : dictEntriesS pconf = l1 ++ (k, v) :: l2)
    (hk : k ≠ Node.conf_default_key)
    (hlast : ∀ x ∈ l2, x.1 ≠ k) :
    (priorityPhase c_a k_d el st).1.attrs k =
      some (if k ∈ c_a then .vlist (w_list v) else v) := by
  have key : ∀ (st1 : NodeSt × Overr),
      ((l1 ++ (k, v) :: l2).foldl (fun st kv =>
        if kv.1 ≠ Node.conf_default_key then applyA c_a k_d st kv.1 kv.2 true
        else st) st1).1.attrs k =
      some (if k ∈ c_a then .vlist (w_list v) else v) := by
    intro st1
    rw [List.foldl_append, List.foldl_cons]
    rw [priority_fold_last c_a k_d l2 _ k hlast]
    rw [if_pos hk]
    exact applyA_attrs_self_default c_a k_d _ k v
  simp only [priorityPhase, hps, hid, hpc, hsplit]
  cases hdd : dictLookup psec (.vstr Node.conf_default_key) <;>
    simp only [hdd] <;> exact key _

/-- Claim C3: in apply_conf the document root's id-priority section is
processed after all generic and attribute-matched contributions of the
pass (apply_conf is the priority phase applied to the prePriority
state), and when the host's id (as it stands at that point) is a key of
the by_id section, every non-default key k of the id-specific sub-dict —
k occurring once, as dict keys do — ends up as a replacing contribution:
the final attribute is exactly the contributed value (w_list-wrapped for
appendable keys), whatever was contributed to it earlier in the pass. -/
theorem C3_priority_theorem (n : NodeSt) (conf : Val) (clean : Bool)
    (psec idv pconf : Val) (k : String) (v : Val) (l1 l2 : List (String × Val))
    (hps : dictLookup conf (.vstr Node.conf_priority_section) = some psec)
    (hid : (prePriority Node.conf_appendable Node.conf_keep_default conf clean
      (if clean then clean_appendable n else n, [])).1.attrs "id" = some idv)
    (hpc : dictLookup psec idv = some pconf)
    (hsplit : dictEntriesS pconf = l1 ++ (k, v) :: l2)
    (hk : k ≠ Node.conf_default_key)
    (hlast : ∀ x ∈ l2, x.1 ≠ k) :
    apply_conf n conf clean =
      (priorityPhase Node.conf_appendable Node.conf_keep_default conf
        (prePriority Node.conf_appendable Node.conf_keep_default conf clean
          (if clean then clean_appendable n else n, []))).1 ∧
    (apply_conf n conf clean).attrs k =
      some (if k ∈ Node.conf_appendable then .vlist (w_list v) else v) := by
  have hdec := apply_conf_decompose n conf clean
  refine ⟨hdec, ?_⟩
  rw [hdec]
  exact priorityPhase_attrs _ _ conf _ psec idv pconf k v l1 l2 hps hid hpc
    hsplit hk hlast

/-- Witness for C3_priority_theorem: a document with a generic cmds
contribution, a by_roles match also contributing to cmds, and
by_id: {7: {cmds: [C]}} leaves host 7 with cmds exactly [C]. -/
theorem C3_priority_witness :
    (apply_conf
      (NodeSt.ofList [("id", .vint 7), ("roles", .vlist [.vstr "x"]),
        ("cmds", .vlist []), ("scripts", .vlist []), ("files", .vlist []),
        ("filelists", .vlist []), ("put", .vlist [])])
      (.vdict [(.vstr "cmds", .vlist [.vstr "A"]),
        (.vstr "by_roles", .vdict [(.vstr "x",
          .vdict [(.vstr "cmds", .vlist [.vstr "B"])])]),
        (.vstr "by_id", .vdict [(.vint 7,
          .vdict [(.vstr "cmds", .vlist [.vstr "C"])])])])
      true).attrs Node.ckey = some (.vlist [.vstr "C"]) := by
  have h := C3_priority_theorem
    (NodeSt.ofList [("id", .vint 7), ("roles", .vlist [.vstr "x"]),
      ("cmds", .vlist []), ("scripts", .vlist []), ("files", .vlist []),
      ("filelists", .vlist []), ("put", .vlist [])])
    (.vdict [(.vstr "cmds", .vlist [.vstr "A"]),
      (.vstr "by_roles", .vdict [(.vstr "x",
        .vdict [(.vstr "cmds", .vlist [.vstr "B"])])]),
      (.vstr "by_id", .vdict [(.vint 7,
        .vdict [(.vstr "cmds", .vlist [.vstr "C"])])])])
    true
    (.vdict [(.vint 7, .vdict [(.vstr "cmds", .vlist [.vstr "C"])])])
    (.vint 7)
    (.vdict [(.vstr "cmds", .vlist [.vstr "C"])])
    Node.ckey (.vlist [.vstr "C"]) [] []
    rfl rfl rfl rfl (by decide) (by simp)
  have h2 := h.2
  rw [if_pos (by decide : Node.ckey ∈ Node.conf_appendable)] at h2
  exact h2

/-! ### Claim C2 -/

/-- Agreement of two walk states: equal overridden sets and equal
attributes on W, on the keep_default keys and on every overridden key —
exactly the attributes the walk can read before having written them
identically on both sides. -/
def AgreeSt (W : String → Prop) (k_d : List String)
    (p q : NodeSt × Overr) : Prop :=
  p.2 = q.2 ∧ ∀ a, (W a ∨ a ∈ k_d ∨ a ∈ p.2) → p.1.attrs a = q.1.attrs a

/-- W contains the name of every attribute consulted by a by_ matcher at
any depth of the document (by_id consults only the id, handled
separately). -/
inductive MatchClosed (W : String → Prop) : Val → Prop where
  | intro (el : Val)
      (hattr : ∀ k vk, (k, vk) ∈ dictEntriesS el →
        k ≠ Node.conf_priority_section →
        strStartsWith k Node.conf_match_pre = true →
        W (strDropChars k (strLen Node.conf_match_pre)))
      (hsub : ∀ k vk, (k, vk) ∈ dictEntriesS el →
        k ≠ Node.conf_priority_section →
        strStartsWith k Node.conf_match_pre = true →
        ∀ v sub, dictLookup vk v = some sub → MatchClosed W sub) :
      MatchClosed W el

theorem applyA_snd (c_a k_d : List String) (st : NodeSt × Overr) (k : String)
    (v : Val) (d : Bool) :
    (applyA c_a k_d st k v d).2 =
      if k ∈ c_a then (if d then st.2 else st.2.insert k) else st.2 := by
  by_cases hk : k ∈ c_a <;> simp [applyA, hk]

theorem applyA_fst_attrs_self (c_a k_d : List String) (st : NodeSt × Overr)
    (k : String) (v : Val) (d : Bool) :
    (applyA c_a k_d st k v d).1.attrs k =
      if k ∈ c_a then
        (if d = true ∨ (k ∉ k_d ∧ k ∉ st.2) ∨ (st.1.attrs k).isNone = true then
          some (.vlist (w_list v))
        else some (extendList (st.1.attrs k) (w_list v)))
      else some v := by
  by_cases hk : k ∈ c_a
  · by_cases hc : d = true ∨ (k ∉ k_d ∧ k ∉ st.2) ∨ (st.1.attrs k).isNone = true
    · simp only [applyA, hk, if_true, NodeSt.set]
      rw [if_pos hc, if_pos hc]
      simp
    · simp only [applyA, hk, if_true, NodeSt.set]
      rw [if_neg hc, if_neg hc]
      simp
  · simp [applyA, hk, NodeSt.set]

theorem applyA_agree {W : String → Prop} {c_a k_d : List String}
    {p q : NodeSt × Overr} (h : AgreeSt W k_d p q) (k : String) (v : Val)
    (d : Bool) :
    AgreeSt W k_d (applyA c_a k_d p k v d) (applyA c_a k_d q k v d) := by
  obtain ⟨ho, hA⟩ := h
  have hvalk : (applyA c_a k_d p k v d).1.attrs k =
      (applyA c_a k_d q k v d).1.attrs k := by
    rw [applyA_fst_attrs_self, applyA_fst_attrs_self]
    by_cases hk : k ∈ c_a
    · rw [if_pos hk, if_pos hk]
      by_cases hmid : k ∈ k_d ∨ k ∈ p.2
      · have he := hA k (Or.inr hmid)
        rw [ho, he]
      · have hm : ¬ k ∈ k_d ∧ ¬ k ∈ p.2 := by push_neg at hmid; exact hmid
        have hm2 : ¬ k ∈ q.2 := by rw [← ho]; exact hm.2
        rw [if_pos (Or.inr (Or.inl ⟨hm.1, hm.2⟩)),
          if_pos (Or.inr (Or.inl ⟨hm.1, hm2⟩))]
    · rw [if_neg hk, if_neg hk]
  refine ⟨?_, ?_⟩
  · rw [applyA_snd, applyA_snd, ho]
  · intro a hdom
    by_cases hak : a = k
    · subst hak; exact hvalk
    · rw [applyA_attrs_ne _ _ _ _ _ _ _ hak, applyA_attrs_ne _ _ _ _ _ _ _ hak]
      apply hA
      rcases hdom with h1 | h1 | h1
      · exact Or.inl h1
      · exact Or.inr (Or.inl h1)
      · right; right
        rw [applyA_snd] at h1
        by_cases hk : k ∈ c_a
        · rw [if_pos hk] at h1
          by_cases hd : d
          · rw [if_pos hd] at h1; exact h1
          · rw [if_neg hd] at h1
            rcases List.mem_insert_iff.mp h1 with h2 | h2
            · exact absurd h2 hak
            · exact h2
        · rw [if_neg hk] at h1; exact h1

theorem foldl_agree {W : String → Prop} {k_d : List String} {α : Type}
    (f g : NodeSt × Overr → α → NodeSt × Overr)
    (hf : ∀ p q x, AgreeSt W k_d p q → AgreeSt W k_d (f p x) (g q x)) :
    ∀ (l : List α) (p q : NodeSt × Overr), AgreeSt W k_d p q →
      AgreeSt W k_d (l.foldl f p) (l.foldl g q) := by
  intro l
  induction l with
  | nil => intro p q h; exact h
  | cons x rest ih => intro p q h; exact ih _ _ (hf p q x h)

theorem normalPhase_agree {W : String → Prop} {c_a k_d : List String}
    (conf el : Val) (clean : Bool) {p q : NodeSt × Overr}
    (h : AgreeSt W k_d p q) :
    AgreeSt W k_d (normalPhase c_a k_d conf el clean p)
      (normalPhase c_a k_d conf el clean q) := by
  unfold normalPhase
  refine foldl_agree _ _ ?_ _ p q h
  intro p q kv hpq
  split
  · split
    · exact applyA_agree hpq _ _ _
    · exact applyA_agree hpq _ _ _
  · exact hpq

theorem applyDefaults_agree {W : String → Prop} {c_a k_d : List String}
    (el : Val) {p q : NodeSt × Overr} (h : AgreeSt W k_d p q) :
    AgreeSt W k_d (applyDefaults c_a k_d el p) (applyDefaults c_a k_d el q) := by
  unfold applyDefaults
  cases hd : dictLookup el (.vstr Node.conf_default_key)
  · exact h
  · refine foldl_agree _ _ ?_ _ p q h
    intro p q kv hpq
    exact applyA_agree hpq _ _ _

theorem priorityPhase_agree {W : String → Prop} {c_a k_d : List String}
    (hid : W "id") (el : Val) {p q : NodeSt × Overr}
    (h : AgreeSt W k_d p q) :
    AgreeSt W k_d (priorityPhase c_a k_d el p) (priorityPhase c_a k_d el q) := by
  unfold priorityPhase
  cases hps : dictLookup el (.vstr Node.conf_priority_section) with
  | none => exact h
  | some psec =>
    dsimp only
    have hideq : p.1.attrs "id" = q.1.attrs "id" := h.2 "id" (Or.inl hid)
    rw [← hideq]
    cases hidv : p.1.attrs "id" with
    | none => exact h
    | some idv =>
      dsimp only
      cases hpc : dictLookup psec idv with
      | none => exact h
      | some pconf =>
        dsimp only
        cases hdd : dictLookup psec (.vstr Node.conf_default_key) with
        | none =>
          dsimp only
          refine foldl_agree _ _ ?_ _ p q h
          intro p q kv hpq
          split
          · exact applyA_agree hpq _ _ _
          · exact hpq
        | some dconf =>
          dsimp only
          refine foldl_agree _ _ ?_ _ _ _
            (foldl_agree (fun st kv => applyA c_a k_d st kv.1 kv.2 false)
              (fun st kv => applyA c_a k_d st kv.1 kv.2 false)
              (fun p q kv hpq => applyA_agree hpq _ _ _)
              (dictEntriesS dconf) p q h)
          intro p q kv hpq
          split
          · exact applyA_agree hpq _ _ _
          · exact hpq

theorem valsLoop_agree {W : String → Prop} {c_a k_d : List String}
    (recur : Val → NodeSt × Overr → NodeSt × Overr) (el vk : Val)
    (hrec : ∀ v sub, dictLookup vk v = some sub →
      ∀ p q, AgreeSt W k_d p q → AgreeSt W k_d (recur sub p) (recur sub q)) :
    ∀ (vs : List Val) (p q : NodeSt × Overr), AgreeSt W k_d p q →
      AgreeSt W k_d (valsLoop recur c_a k_d el vk vs p)
        (valsLoop recur c_a k_d el vk vs q) := by
  intro vs
  induction vs with
  | nil => intro p q h; exact h
  | cons v rest ih =>
    intro p q h
    simp only [valsLoop]
    cases hsub : dictLookup vk v
    · exact ih _ _ h
    · exact ih _ _ (hrec v _ hsub _ _ (applyDefaults_agree el h))

theorem matchLoop_agree {W : String → Prop} {c_a k_d : List String}
    (recur : Val → NodeSt × Overr → NodeSt × Overr) (el : Val) :
    ∀ (ks : List (String × Val)),
      (∀ k vk, (k, vk) ∈ ks → k ≠ Node.conf_priority_section →
        strStartsWith k Node.conf_match_pre = true →
        W (strDropChars k (strLen Node.conf_match_pre)) ∧
        ∀ v sub, dictLookup vk v = some sub →
          ∀ p q, AgreeSt W k_d p q →
            AgreeSt W k_d (recur sub p) (recur sub q)) →
      ∀ (p q : NodeSt × Overr), AgreeSt W k_d p q →
        AgreeSt W k_d (matchLoop recur c_a k_d el ks p)
          (matchLoop recur c_a k_d el ks q) := by
  intro ks
  induction ks with
  | nil => intro _ p q h; exact h
  | cons kv rest ih =>
    intro hks p q h
    obtain ⟨k, vk⟩ := kv
    simp only [matchLoop]
    have htail := fun k2 vk2 hm => hks k2 vk2 (List.mem_cons_of_mem _ hm)
    by_cases hg : k ≠ Node.conf_priority_section ∧
        strStartsWith k Node.conf_match_pre = true
    · rw [if_pos hg, if_pos hg]
      obtain ⟨hW, hsubs⟩ := hks k vk (List.mem_cons_self _ _) hg.1 hg.2
      have hae : p.1.attrs (strDropChars k (strLen Node.conf_match_pre)) =
          q.1.attrs (strDropChars k (strLen Node.conf_match_pre)) :=
        h.2 _ (Or.inl hW)
      rw [← hae]
      cases han : p.1.attrs (strDropChars k (strLen Node.conf_match_pre))
      · exact ih htail p q h
      · exact ih htail _ _ (valsLoop_agree recur el vk hsubs _ p q h)
    · rw [if_neg hg, if_neg hg]
      exact ih htail p q h

theorem r_apply_agree {W : String → Prop} (hid : W "id")
    (c_a k_d : List String) (conf : Val) :
    ∀ (fuel : Nat) (el : Val), MatchClosed W el →
      ∀ (p q : NodeSt × Overr) (clean : Bool), AgreeSt W k_d p q →
        AgreeSt W k_d (r_apply c_a k_d conf fuel el p clean)
          (r_apply c_a k_d conf fuel el q clean) := by
  intro fuel
  induction fuel with
  | zero => intro el _ p q clean h; exact h
  | succ fuel ih =>
    intro el hcl p q clean h
    simp only [r_apply]
    apply priorityPhase_agree hid
    apply matchLoop_agree
    · cases hcl with
      | intro _ hattr hsubcl =>
        intro k vk hmem hne hsw
        refine ⟨hattr k vk hmem hne hsw, ?_⟩
        intro v sub hsub p2 q2 h2
        exact ih sub (hsubcl k vk hmem hne hsw v sub hsub) p2 q2 false h2
    · exact normalPhase_agree conf el clean h

/-- Claim C2, amended: re-resolving the same document with reset=true is
idempotent on the four reset sequences provided the first pass leaves
unchanged the host's id and every attribute consulted by a by_ matcher
anywhere in the document (W is any attribute set containing id and
closed under the document's matchers, on which the first pass is the
identity).  Without that proviso the claim fails — see
C2_counterexample, where a by_id branch overwrites the id itself. -/
theorem C2_idempotent_theorem (s : NodeSt) (conf : Val) (W : String → Prop)
    (hW : MatchClosed W conf) (hid : W "id")
    (hfix : ∀ a, W a → (apply_conf s conf true).attrs a = s.attrs a) :
    ∀ key ∈ Node.conf_keep_default,
      (apply_conf (apply_conf s conf true) conf true).attrs key =
        (apply_conf s conf true).attrs key := by
  intro key hkey
  have hinit : AgreeSt W Node.conf_keep_default
      (clean_appendable s, ([] : Overr))
      (clean_appendable (apply_conf s conf true), ([] : Overr)) := by
    refine ⟨rfl, ?_⟩
    intro a hdom
    show (clean_appendable s).attrs a =
      (clean_appendable (apply_conf s conf true)).attrs a
    rw [clean_appendable_attrs, clean_appendable_attrs]
    by_cases hm : a ∈ Node.conf_keep_default
    · rw [if_pos hm, if_pos hm]
    · rw [if_neg hm, if_neg hm]
      rcases hdom with h1 | h1 | h1
      · exact (hfix a h1).symm
      · exact absurd h1 hm
      · simp at h1
  have hwalk := r_apply_agree hid Node.conf_appendable Node.conf_keep_default
    conf (confFuel conf) conf hW _ _ true hinit
  exact (hwalk.2 key (Or.inr (Or.inl hkey))).symm

/-- Claim C2, counterexample: for the document
by_id: {7: {id: 5, cmds: [B]}} and a host with id 7, a single clean
resolution yields cmds [B] (and overwrites id to 5), while two clean
resolutions in succession yield cmds [] — the second pass no longer
matches the by_id section — so repeated resolution is not idempotent as
claimed. -/
theorem C2_counterexample :
    (apply_conf
      (NodeSt.ofList [("id", .vint 7), ("cmds", .vlist []),
        ("scripts", .vlist []), ("files", .vlist []), ("filelists", .vlist []),
        ("put", .vlist [])])
      (.vdict [(.vstr "by_id", .vdict [(.vint 7,
        .vdict [(.vstr "id", .vint 5), (.vstr "cmds", .vlist [.vstr "B"])])])])
      true).attrs Node.ckey = some (.vlist [.vstr "B"]) ∧
    (apply_conf
      (apply_conf
        (NodeSt.ofList [("id", .vint 7), ("cmds", .vlist []),
          ("scripts", .vlist []), ("files", .vlist []),
          ("filelists", .vlist []), ("put", .vlist [])])
        (.vdict [(.vstr "by_id", .vdict [(.vint 7,
          .vdict [(.vstr "id", .vint 5), (.vstr "cmds", .vlist [.vstr "B"])])])])
        true)
      (.vdict [(.vstr "by_id", .vdict [(.vint 7,
        .vdict [(.vstr "id", .vint 5), (.vstr "cmds", .vlist [.vstr "B"])])])])
      true).attrs Node.ckey = some (.vlist []) ∧
    some (Val.vlist []) ≠ some (Val.vlist [Val.vstr "B"]) :=
  ⟨rfl, rfl, by simp⟩

/-- A host and document for the C2 witness: a by_roles matcher whose
contributions touch only cmds, so the matched attributes are untouched
by a pass. -/
def cwHost : NodeSt := NodeSt.ofList
  [("id", .vint 7), ("roles", .vlist [.vstr "x"]), ("cmds", .vlist []),
   ("scripts", .vlist []), ("files", .vlist []), ("filelists", .vlist []),
   ("put", .vlist [])]

def cwConf : Val := .vdict
  [(.vstr "cmds", .vlist [.vstr "A"]),
   (.vstr "by_roles", .vdict [(.vstr "x",
     .vdict [(.vstr "cmds", .vlist [.vstr "B"])])])]

/-- Witness for C2_idempotent_theorem at cwHost/cwConf with
W = {id, roles}. -/
theorem C2_idempotent_witness :
    (apply_conf (apply_conf cwHost cwConf true) cwConf true).attrs Node.ckey =
      (apply_conf cwHost cwConf true).attrs Node.ckey := by
  refine C2_idempotent_theorem cwHost cwConf (fun a => a = "id" ∨ a = "roles")
    ?_ (Or.inl rfl) ?_ Node.ckey (by decide)
  · refine MatchClosed.intro _ ?_ ?_
    · intro k vk hmem hne hsw
      simp only [cwConf, dictEntriesS, List.filterMap, List.mem_cons,
        List.not_mem_nil, or_false, Prod.mk.injEq] at hmem
      rcases hmem with ⟨hk, hv⟩ | ⟨hk, hv⟩
      · subst hk; exact absurd hsw (by decide)
      · subst hk; exact Or.inr rfl
    · intro k vk hmem hne hsw v sub hsub
      simp only [cwConf, dictEntriesS, List.filterMap, List.mem_cons,
        List.not_mem_nil, or_false, Prod.mk.injEq] at hmem
      rcases hmem with ⟨hk, hv⟩ | ⟨hk, hv⟩
      · subst hk; exact absurd hsw (by decide)
      · subst hk; subst hv
        simp only [dictLookup, List.find?] at hsub
        cases hb : Val.beq (Val.vstr "x") v
        · rw [hb] at hsub; simp at hsub
        · rw [hb] at hsub
          simp only [Option.map_some'] at hsub
          cases hsub
          refine MatchClosed.intro _ ?_ ?_
          · intro k2 vk2 hmem2 hne2 hsw2
            simp only [dictEntriesS, List.filterMap, List.mem_cons,
              List.not_mem_nil, or_false, Prod.mk.injEq] at hmem2
            obtain ⟨hk2, hv2⟩ := hmem2
            subst hk2
            exact absurd hsw2 (by decide)
          · intro k2 vk2 hmem2 hne2 hsw2
            simp only [dictEntriesS, List.filterMap, List.mem_cons,
              List.not_mem_nil, or_false, Prod.mk.injEq] at hmem2
            obtain ⟨hk2, hv2⟩ := hmem2
            subst hk2
            exact absurd hsw2 (by decide)
  · intro a ha
    rcases ha with h | h <;> subst h <;> rfl
